import Mathlib

/-!
Verification of `dmenu_drun` (src/main.rs) against its specification.

Strings are modelled as `List Char`; the cache mapping as an association
list of key/value pairs built by hash-map-style insertion (later insertion
for a key replaces the earlier binding).  All definitions are translated
from the Rust source; the few definitions that instead transcribe the
specification's words (for comparison against the code) carry a doc
comment saying so.
-/

namespace DmenuDrun

/-- The NUL field separator of the on-disk cache format
(`writeln!(f, ...)` with a NUL between key and value in `impl Display for Cache`). -/
def fieldSep : Char := Char.ofNat 0

/-- The line feed terminating each serialized record. -/
def lineFeed : Char := Char.ofNat 10

/-- Carriage return; `str::lines` strips one trailing CR from each line. -/
def carriageReturn : Char := Char.ofNat 13

/-- Split a character list on a separator character, keeping empty pieces,
modelling Rust `str::split(c)`.  The result is always non-empty. -/
def splitOnChar (c : Char) : List Char → List (List Char)
  | [] => [[]]
  | x :: xs =>
    if x = c then [] :: splitOnChar c xs
    else
      match splitOnChar c xs with
      | [] => [[x]]
      | y :: ys => (x :: y) :: ys

/-- Drop the last piece when it is empty: together with `splitOnChar` this
models Rust `str::split_terminator`. -/
def dropTrailingEmpty (ls : List (List Char)) : List (List Char) :=
  if ls.getLast? = some ([] : List Char) then ls.dropLast else ls

/-- Remove one trailing carriage return, as `str::lines` does per line. -/
def stripTrailingCR (l : List Char) : List Char :=
  if l.getLast? = some carriageReturn then l.dropLast else l

/-- Rust `str::lines`: split on LF, drop a final empty piece, and strip one
trailing CR from every line. -/
def rustLines (s : List Char) : List (List Char) :=
  (dropTrailingEmpty (splitOnChar lineFeed s)).map stripTrailingCR

/-- One serialized cache record: `key NUL value LF`
(from `impl Display for Cache`). -/
def serializeEntry (k v : List Char) : List Char :=
  k ++ fieldSep :: (v ++ [lineFeed])

/-- Serialization, from `impl Display for Cache`: one record per entry, in
iteration order. -/
def serializeCache (m : List (List Char × List Char)) : List Char :=
  (m.map fun p => serializeEntry p.1 p.2).flatten

/-- Parse one line of the cache file: split on NUL and keep the line only
when it splits into exactly two pieces (`collect_tuple::<(_, _)>`). -/
def parseLine (l : List Char) : Option (List Char × List Char) :=
  match splitOnChar fieldSep l with
  | [k, v] => some (k, v)
  | _ => none

/-- Parsing, from `impl FromStr for Cache`: split into lines, parse each line, silently
discarding malformed ones; the surviving pairs are collected into the map. -/
def parseCache (s : List Char) : List (List Char × List Char) :=
  (rustLines s).filterMap parseLine

/-- A string free of the field separator and of line-terminator characters
(LF, and CR which participates in the CRLF terminator). -/
def cleanStr (s : List Char) : Prop :=
  ∀ c ∈ s, c ≠ fieldSep ∧ c ≠ lineFeed ∧ c ≠ carriageReturn

instance (s : List Char) : Decidable (cleanStr s) := by
  unfold cleanStr; infer_instance

theorem splitOnChar_ne_nil (c : Char) (s : List Char) : splitOnChar c s ≠ [] := by
  induction s with
  | nil => simp [splitOnChar]
  | cons x xs ih =>
    simp only [splitOnChar]
    split
    · simp
    · split
      · simp
      · simp

theorem splitOnChar_of_not_mem {c : Char} {s : List Char} (h : c ∉ s) :
    splitOnChar c s = [s] := by
  induction s with
  | nil => rfl
  | cons x xs ih =>
    simp only [List.mem_cons, not_or] at h
    simp only [splitOnChar]
    rw [if_neg (fun hx : x = c => h.1 hx.symm), ih h.2]

theorem splitOnChar_append {c : Char} {l : List Char} (rest : List Char)
    (h : c ∉ l) : splitOnChar c (l ++ c :: rest) = l :: splitOnChar c rest := by
  induction l with
  | nil => simp [splitOnChar]
  | cons x xs ih =>
    simp only [List.mem_cons, not_or] at h
    simp only [List.cons_append, splitOnChar]
    rw [if_neg (fun hx : x = c => h.1 hx.symm)]
    rw [show xs.append (c :: rest) = xs ++ c :: rest from rfl, ih h.2]

theorem dropTrailingEmpty_cons {l : List Char} {S : List (List Char)} (hS : S ≠ []) :
    dropTrailingEmpty (l :: S) = l :: dropTrailingEmpty S := by
  obtain ⟨y, ys, rfl⟩ := List.exists_cons_of_ne_nil hS
  unfold dropTrailingEmpty
  rw [List.getLast?_cons_cons]
  by_cases h : (y :: ys).getLast? = some ([] : List Char)
  · rw [if_pos h, if_pos h]; rfl
  · rw [if_neg h, if_neg h]

theorem rustLines_append {l : List Char} (rest : List Char) (h : lineFeed ∉ l) :
    rustLines (l ++ lineFeed :: rest) = stripTrailingCR l :: rustLines rest := by
  unfold rustLines
  rw [splitOnChar_append rest h, dropTrailingEmpty_cons (splitOnChar_ne_nil _ _),
    List.map_cons]

theorem getLast?_entry_body {k v : List Char} (hv : cleanStr v) :
    (k ++ fieldSep :: v).getLast? ≠ some carriageReturn := by
  rw [List.getLast?_append_cons]
  cases v with
  | nil => simp [fieldSep, carriageReturn]
  | cons w ws =>
    rw [List.getLast?_cons_cons]
    intro hmem
    have hx := List.mem_getLast?_eq_getLast (Option.mem_def.mpr hmem)
    obtain ⟨hne, hx⟩ := hx
    exact ((hv _ (hx ▸ List.getLast_mem hne)).2.2) rfl

theorem parseLine_entry_body {k v : List Char} (hk : fieldSep ∉ k) (hv : fieldSep ∉ v) :
    parseLine (k ++ fieldSep :: v) = some (k, v) := by
  unfold parseLine
  rw [splitOnChar_append v hk, splitOnChar_of_not_mem hv]

theorem cleanStr_not_mem_fieldSep {s : List Char} (h : cleanStr s) : fieldSep ∉ s :=
  fun hm => (h _ hm).1 rfl

theorem cleanStr_not_mem_lineFeed {s : List Char} (h : cleanStr s) : lineFeed ∉ s :=
  fun hm => (h _ hm).2.1 rfl

/-- C1: round-trip of the cache store.  For every mapping whose keys and
values contain neither the NUL field separator nor a line-terminator
character, parsing the serialization of the mapping yields the original
key/value pairs (here even in the same order, which entails equality as a
set of pairs). -/
theorem cache_store_roundtrip (m : List (List Char × List Char))
    (h : ∀ p ∈ m, cleanStr p.1 ∧ cleanStr p.2) :
    parseCache (serializeCache m) = m := by
  induction m with
  | nil => rfl
  | cons p m ih =>
    obtain ⟨k, v⟩ := p
    obtain ⟨hk, hv⟩ := h _ (List.mem_cons_self _ _)
    have hrest : ∀ q ∈ m, cleanStr q.1 ∧ cleanStr q.2 :=
      fun q hq => h q (List.mem_cons_of_mem _ hq)
    have hassoc :
        serializeCache ((k, v) :: m) =
          (k ++ fieldSep :: v) ++ lineFeed :: serializeCache m := by
      simp [serializeCache, serializeEntry]
    have hnl : lineFeed ∉ k ++ fieldSep :: v := by
      simp only [List.mem_append, List.mem_cons, not_or]
      exact ⟨cleanStr_not_mem_lineFeed hk, by decide, cleanStr_not_mem_lineFeed hv⟩
    rw [hassoc]
    unfold parseCache
    rw [rustLines_append _ hnl, List.filterMap_cons,
      stripTrailingCR, if_neg (getLast?_entry_body hv),
      parseLine_entry_body (cleanStr_not_mem_fieldSep hk) (cleanStr_not_mem_fieldSep hv)]
    exact congrArg _ (ih hrest)

/-- Witness for C1 at a concrete two-entry mapping. -/
theorem cache_store_roundtrip_witness :
    parseCache (serializeCache
        [("vim".toList, "vim".toList), ("Firefox".toList, "firefox.desktop".toList)]) =
      [("vim".toList, "vim".toList), ("Firefox".toList, "firefox.desktop".toList)] :=
  cache_store_roundtrip _ (by decide)

/-- The cache file's modification time as computed in `main`:
`metadata().map_or_else(|_| UNIX_EPOCH, |x| x.modified().unwrap())`, i.e.
the epoch (0) when the metadata cannot be read, in particular when the
file does not exist. -/
def cacheMtimeOf (cacheMeta : Option Nat) : Nat := cacheMeta.getD 0

/-- The rebuild decision of `main`: rebuild when the cache file does not
exist, or when some watched directory (a search-path or desktop directory,
given here by its modification time, `none` when its metadata cannot be
read) is strictly newer than the cache file; an unreadable directory
contributes `unwrap_or(false)`. -/
def rebuildCache (cacheMeta : Option Nat) (dirs : List (Option Nat)) : Bool :=
  !cacheMeta.isSome ||
    dirs.any fun d => (d.map fun t => decide (cacheMtimeOf cacheMeta < t)).getD false

/-- C2: cache invalidation policy.  A rebuild occurs iff the cache file
does not exist or some watched directory with readable metadata is
strictly newer than the cache file's modification time (the epoch when the
file is absent); unreadable directories never force a rebuild, and when
the cache file exists with a modification time at or after every readable
directory's, no rebuild occurs. -/
theorem cache_invalidation_policy (cacheMeta : Option Nat) (dirs : List (Option Nat)) :
    (rebuildCache cacheMeta dirs = true ↔
      cacheMeta = none ∨ ∃ t, some t ∈ dirs ∧ cacheMtimeOf cacheMeta < t)
    ∧ (∀ mt, cacheMeta = some mt → (∀ t, some t ∈ dirs → t ≤ mt) →
        rebuildCache cacheMeta dirs = false) := by
  constructor
  · unfold rebuildCache
    cases cacheMeta with
    | none => simp
    | some mt =>
      simp only [Option.isSome_some, Bool.not_true, Bool.false_or, List.any_eq_true,
        reduceCtorEq, false_or]
      constructor
      · rintro ⟨d, hd, hf⟩
        cases d with
        | none => simp at hf
        | some t =>
          refine ⟨t, hd, ?_⟩
          simpa [cacheMtimeOf] using hf
      · rintro ⟨t, ht, hlt⟩
        exact ⟨some t, ht, by simpa [cacheMtimeOf] using hlt⟩
  · rintro mt rfl hle
    rw [← Bool.not_eq_true]
    intro hre
    rcases ((by
        unfold rebuildCache at hre
        simpa only [Option.isSome_some, Bool.not_true, Bool.false_or,
          List.any_eq_true] using hre) :
        ∃ d ∈ dirs, (d.map fun t => decide (cacheMtimeOf (some mt) < t)).getD false = true)
      with ⟨d, hd, hf⟩
    cases d with
    | none => simp at hf
    | some t =>
      have := hle t hd
      simp [cacheMtimeOf] at hf
      omega

/-- Witness for C2: cache present at time 5, directories at times 3 and 5
plus an unreadable one, so no rebuild happens. -/
theorem cache_invalidation_policy_witness :
    rebuildCache (some 5) [some 3, none, some 5] = false :=
  (cache_invalidation_policy (some 5) [some 3, none, some 5]).2 5 rfl (by
    intro t ht
    simp only [List.mem_cons, List.not_mem_nil, or_false, Option.some.injEq,
      reduceCtorEq, false_or] at ht
    omega)

/-- The desktop-shortcut suffix `".desktop"`. -/
def desktopSuffix : List Char := ".desktop".toList

/-- Rust `str::ends_with` on the character-list model. -/
def endsWith (pat s : List Char) : Bool := pat.isSuffixOf s

/-- Models `cache.drain_filter(p).collect()` in `main`: `drain_filter` removes
and yields exactly the entries satisfying the predicate, and the collected
result replaces the cache, so the surviving map holds exactly the entries
on which the predicate is true. -/
def drainFilterCollect (p : List Char → List Char → Bool)
    (m : List (List Char × List Char)) : List (List Char × List Char) :=
  m.filter fun kv => p kv.1 kv.2

/-- The `-p` (hide path-sourced) filter: `drain_filter(|k, v| k != v)`. -/
def hidePathSourced (m : List (List Char × List Char)) : List (List Char × List Char) :=
  drainFilterCollect (fun k v => !(k == v)) m

/-- The `-d` (hide desktop-sourced) filter:
`drain_filter(|_, v| !v.ends_with(".desktop"))`. -/
def hideDesktopSourced (m : List (List Char × List Char)) : List (List Char × List Char) :=
  drainFilterCollect (fun _ v => !(endsWith desktopSuffix v)) m

/-- The specification's worked example mapping
`{"vim": "vim", "Firefox": "firefox.desktop"}`. -/
def exampleMap : List (List Char × List Char) :=
  [("vim".toList, "vim".toList), ("Firefox".toList, "firefox.desktop".toList)]

/-- C6 counterexample: on the example mapping the hide-desktop-sourced
filter keeps the direct entry `vim` and removes the desktop entry
`Firefox`, the opposite of what the claim states (the claim would retain
exactly the `.desktop`-valued entries). -/
theorem hide_desktop_sourced_claim_counterexample :
    hideDesktopSourced exampleMap = [("vim".toList, "vim".toList)] ∧
      ("Firefox".toList, "firefox.desktop".toList) ∉ hideDesktopSourced exampleMap := by
  decide

/-- C6 (amended): the hide-desktop-sourced filter removes every entry
whose value ends with `.desktop` and retains exactly the entries whose
value does not end with `.desktop` (it removes desktop entries and keeps
direct entries). -/
theorem hide_desktop_sourced_characterization (m : List (List Char × List Char))
    (k v : List Char) :
    (k, v) ∈ hideDesktopSourced m ↔ (k, v) ∈ m ∧ endsWith desktopSuffix v = false := by
  simp [hideDesktopSourced, drainFilterCollect, List.mem_filter, Bool.not_eq_true']

/-- C7: filter behaviour on the example mapping, and both filters only
ever remove entries, never add any. -/
theorem filter_example_behaviour :
    hidePathSourced exampleMap = [("Firefox".toList, "firefox.desktop".toList)] ∧
      hideDesktopSourced exampleMap = [("vim".toList, "vim".toList)] ∧
      ∀ (m : List (List Char × List Char)) (p : List Char → List Char → Bool),
        drainFilterCollect p m ⊆ m := by
  refine ⟨by decide, by decide, ?_⟩
  intro m p a ha
  exact (List.mem_filter.mp ha).1

/-- Witness for C7: the subset part applied at the hide-path filter on the
example mapping. -/
theorem filter_example_behaviour_witness :
    ("Firefox".toList, "firefox.desktop".toList) ∈ exampleMap :=
  filter_example_behaviour.2.2 exampleMap (fun k v => !(k == v)) (by decide)

/-- Accumulator pass for Rust `str::split_whitespace`: maximal runs of
non-whitespace characters, empty pieces discarded. -/
def splitWsAux : List Char → List Char → List (List Char)
  | [], acc => if acc = [] then [] else [acc.reverse]
  | c :: cs, acc =>
    if c.isWhitespace then
      if acc = [] then splitWsAux cs []
      else acc.reverse :: splitWsAux cs []
    else splitWsAux cs (c :: acc)

/-- Rust `str::split_whitespace` on the character-list model. -/
def splitWhitespaceL (s : List Char) : List (List Char) := splitWsAux s []

/-- Lookup, `HashMap::get`, on the association-list model of the cache. -/
def lookupKey (m : List (List Char × List Char)) (k : List Char) : Option (List Char) :=
  (m.find? fun p => p.1 == k).map Prod.snd

/-- The desktop-launch helper's name, `gtk-launch`. -/
def gtkLaunch : List Char := "gtk-launch".toList

/-- The externally observable action of the dispatch section of `main`:
a foreground spawn-and-wait, a detached (daemonized) helper invocation, or
the fatal `expect("Got empty output from dmenu")`. -/
inductive DispatchAction where
  | foreground (prog : List Char) (args : List (List Char))
  | detachedHelper (helper : List Char) (arg : List Char)
  | fatalEmptyInput
  deriving DecidableEq, Repr

/-- The dispatch section of `main` (lines 115-139): look the normalized
selector output up in the cache; on a hit with `output == entry` spawn the
entry in the foreground and wait; on a hit with a different value,
`daemon(true, true)` first and only the forked child invokes `gtk-launch`
with the value as its single argument and waits; on a miss split the
output on whitespace and spawn token 0 with the remaining tokens as
arguments, dying on `expect` when there is no token. -/
def dispatch (cache : List (List Char × List Char)) (out : List Char) : DispatchAction :=
  match lookupKey cache out with
  | some entry =>
    if out = entry then .foreground entry []
    else .detachedHelper gtkLaunch entry
  | none =>
    match splitWhitespaceL out with
    | [] => .fatalEmptyInput
    | p :: args => .foreground p args

/-- C3: dispatch resolution.  For every cache and (already normalized)
selector output: a hit whose value equals the output is spawned directly
in the foreground with no arguments; a hit whose value differs causes the
dispatcher to detach and run the desktop-launch helper with the value as
its single argument; a miss is split on whitespace, token 0 becoming the
program and the rest its arguments, and a zero-token split is a fatal
error. -/
theorem dispatch_resolution (cache : List (List Char × List Char)) (out : List Char) :
    (∀ e, lookupKey cache out = some e → out = e →
      dispatch cache out = .foreground e [])
    ∧ (∀ e, lookupKey cache out = some e → out ≠ e →
      dispatch cache out = .detachedHelper gtkLaunch e)
    ∧ (lookupKey cache out = none → splitWhitespaceL out = [] →
      dispatch cache out = .fatalEmptyInput)
    ∧ (lookupKey cache out = none → ∀ p args, splitWhitespaceL out = p :: args →
      dispatch cache out = .foreground p args) := by
  refine ⟨?_, ?_, ?_, ?_⟩
  · intro e he hoe
    subst hoe
    simp [dispatch, he]
  · intro e he hoe
    simp [dispatch, he, hoe]
  · intro he hsplit
    simp [dispatch, he, hsplit]
  · intro he p args hsplit
    simp [dispatch, he, hsplit]

/-- Witness for C3: on the example mapping, selecting `Firefox` detaches
and hands `firefox.desktop` to the helper. -/
theorem dispatch_resolution_witness :
    dispatch exampleMap ("Firefox".toList) =
      .detachedHelper gtkLaunch ("firefox.desktop".toList) :=
  (dispatch_resolution exampleMap ("Firefox".toList)).2.1
    ("firefox.desktop".toList) (by decide) (by decide)

/-- Models `std::process::exit(result.status.code().unwrap_or(-1))` at the end of
`main`: the final exit status is computed from the selector's (dmenu's)
status alone. -/
def finalExitCode (selectorCode : Option Int) : Int := selectorCode.getD (-1)

/-- The observable outcome of the tail of `main`: which dispatch action
ran, and the process's final exit code. -/
structure RunOutcome where
  action : DispatchAction
  exitCode : Int
  deriving DecidableEq, Repr

/-- The tail of `main` (lines 115-141): the dispatch branch runs, the
launched target's wait status is bound to `_` (discarded) in every branch,
and the process exits with `result.status.code().unwrap_or(-1)` computed
from the selector's status. -/
def runMainTail (cache : List (List Char × List Char)) (out : List Char)
    (selectorCode : Option Int) (_targetCode : Option Int) : RunOutcome :=
  { action := dispatch cache out
    exitCode := finalExitCode selectorCode }

/-- Modelled from the spec's words, for comparison with the code: exit
with the launched target's exit status when obtainable, else the
selector's own exit status, else the fixed fallback. -/
def specFinalExitCode (targetCode selectorCode : Option Int) : Int :=
  targetCode.getD (selectorCode.getD (-1))

/-- C4 counterexample: with the selector exiting 0 and the launched target
exiting with an obtainable status 3, the process exits 0 (the selector's
status), not 3 as the claim requires. -/
theorem exit_status_claim_counterexample :
    (runMainTail exampleMap ("vim".toList) (some 0) (some 3)).exitCode ≠
      specFinalExitCode (some 3) (some 0) := by
  decide

/-- C4 (amended): in every dispatch branch the process exits with the
selector's exit status when it is obtainable and with the failure sentinel
-1 otherwise; the launched target's exit status is discarded and never
influences the final exit status. -/
theorem final_exit_from_selector (cache : List (List Char × List Char))
    (out : List Char) (selectorCode targetCode₁ targetCode₂ : Option Int) :
    runMainTail cache out selectorCode targetCode₁ =
        runMainTail cache out selectorCode targetCode₂
    ∧ (runMainTail cache out selectorCode targetCode₁).exitCode =
        selectorCode.getD (-1) :=
  ⟨rfl, rfl⟩

/-- Rust `str::trim_start` on the character-list model. -/
def trimLeft (s : List Char) : List Char := s.dropWhile Char.isWhitespace

/-- Rust `str::trim_end` on the character-list model. -/
def trimRight (s : List Char) : List Char :=
  (s.reverse.dropWhile Char.isWhitespace).reverse

/-- Rust `str::trim`: whitespace removed from both ends. -/
def trimStr (s : List Char) : List Char := trimRight (trimLeft s)

/-- Fuelled loop for Rust `str::trim_end_matches(pat)`: repeatedly remove
the pattern from the end while it is a suffix.  Each step removes at least
one character when the pattern is non-empty, so fuel `s.length` suffices. -/
def trimEndMatchesAux (pat : List Char) : Nat → List Char → List Char
  | 0, s => s
  | fuel + 1, s =>
    if pat ≠ [] ∧ pat.isSuffixOf s then
      trimEndMatchesAux pat fuel (s.take (s.length - pat.length))
    else s

/-- Rust `str::trim_end_matches(pat)`. -/
def trimEndMatches (pat s : List Char) : List Char := trimEndMatchesAux pat s.length s

/-- The selector-output normalization in `main`:
`trim().trim_end_matches(".desktop")`. -/
def normalizeOutput (raw : List Char) : List Char :=
  trimEndMatches desktopSuffix (trimStr raw)

theorem isSuffixOf_trimEndMatchesAux {pat : List Char} (hp : pat ≠ []) :
    ∀ fuel s, s.length ≤ fuel → pat.isSuffixOf (trimEndMatchesAux pat fuel s) = false := by
  intro fuel
  induction fuel with
  | zero =>
    intro s hs
    rw [List.length_eq_zero.mp (Nat.le_zero.mp hs)]
    rw [show trimEndMatchesAux pat 0 [] = [] from rfl]
    rw [← Bool.not_eq_true, List.isSuffixOf_iff_suffix]
    exact fun hsuf => hp (List.suffix_nil.mp hsuf)
  | succ fuel ih =>
    intro s hs
    rw [trimEndMatchesAux]
    split
    · rename_i h
      apply ih
      have h1 : 0 < pat.length := List.length_pos.mpr h.1
      have h2 : pat.length ≤ s.length :=
        (List.isSuffixOf_iff_suffix.mp h.2).length_le
      rw [List.length_take]
      omega
    · rename_i h
      rw [not_and] at h
      exact Bool.not_eq_true _ ▸ (h hp)

theorem isSuffixOf_trimEndMatches {pat : List Char} (hp : pat ≠ []) (s : List Char) :
    pat.isSuffixOf (trimEndMatches pat s) = false :=
  isSuffixOf_trimEndMatchesAux hp s.length s le_rfl

/-- C10: selector-output normalization.  The lookup string - the raw
selector output trimmed of whitespace and then stripped of every trailing
repetition of `.desktop` - never ends in `.desktop`; consequently, in a
cache all of whose keys end in `.desktop`, the lookup misses and the
dispatcher takes the freeform branch. -/
theorem normalized_output_never_desktop (raw : List Char)
    (cache : List (List Char × List Char)) :
    desktopSuffix.isSuffixOf (normalizeOutput raw) = false
    ∧ ((∀ p ∈ cache, desktopSuffix.isSuffixOf p.1 = true) →
        lookupKey cache (normalizeOutput raw) = none
        ∧ dispatch cache (normalizeOutput raw) =
            (match splitWhitespaceL (normalizeOutput raw) with
              | [] => .fatalEmptyInput
              | p :: args => .foreground p args)) := by
  have hns : desktopSuffix.isSuffixOf (normalizeOutput raw) = false :=
    isSuffixOf_trimEndMatches (by decide) _
  refine ⟨hns, fun hall => ?_⟩
  have hnone : lookupKey cache (normalizeOutput raw) = none := by
    unfold lookupKey
    rw [Option.map_eq_none', List.find?_eq_none]
    intro p hp hbeq
    have hkey : p.1 = normalizeOutput raw := beq_iff_eq.mp hbeq
    have := hall p hp
    rw [hkey, hns] at this
    exact Bool.false_ne_true this
  refine ⟨hnone, ?_⟩
  unfold dispatch
  rw [hnone]

/-- Witness for C10: normalizing the selector output `" vim.desktop "`
against a cache whose sole key is `x.desktop`. -/
theorem normalized_output_never_desktop_witness :
    lookupKey [("x.desktop".toList, "y".toList)]
        (normalizeOutput (" vim.desktop ".toList)) = none :=
  ((normalized_output_never_desktop (" vim.desktop ".toList)
      [("x.desktop".toList, "y".toList)]).2 (by decide)).1

/-- Insertion, `HashMap::insert`, on the association-list model: the new binding
replaces any earlier binding of the same key. -/
def insertKV (m : List (List Char × List Char)) (k v : List Char) :
    List (List Char × List Char) :=
  (m.filter fun p => !(p.1 == k)) ++ [(k, v)]

/-- Folding `HashMap::insert` over a pair list in order; this models both
the builders' insertion loops and `HashMap::extend` in `main`. -/
def insertAll (m : List (List Char × List Char))
    (ps : List (List Char × List Char)) : List (List Char × List Char) :=
  ps.foldl (fun acc p => insertKV acc p.1 p.2) m

/-- The value of the last pair carrying a given key in a scan-ordered pair
list (`none` when no pair carries the key): the winner under
last-insertion-wins semantics. -/
def lastAssoc (ps : List (List Char × List Char)) (k : List Char) :
    Option (List Char) :=
  (ps.reverse.find? fun p => p.1 == k).map Prod.snd

theorem lookupKey_nil (k : List Char) : lookupKey [] k = none := rfl

theorem lookupKey_insertKV (m : List (List Char × List Char)) (k v k' : List Char) :
    lookupKey (insertKV m k v) k' = if k' = k then some v else lookupKey m k' := by
  unfold lookupKey insertKV
  rw [List.find?_append]
  by_cases hk : k' = k
  · subst hk
    have hleft :
        (m.filter fun p => !(p.1 == k')).find? (fun p => p.1 == k') = none := by
      rw [List.find?_eq_none]
      intro p hp
      have hb := (List.mem_filter.mp hp).2
      simp only [Bool.not_eq_true'] at hb
      simp [hb]
    rw [hleft, if_pos rfl]
    simp [List.find?]
  · rw [if_neg hk]
    have hkk : (k == k') = false := beq_eq_false_iff_ne.mpr fun h => hk h.symm
    have hright : ([(k, v)].find? fun p => p.1 == k') = none := by
      simp [List.find?, hkk]
    rw [hright, Option.or_none]
    induction m with
    | nil => rfl
    | cons q m ih =>
      by_cases hq : q.1 = k
      · have hbq : (q.1 == k) = true := beq_iff_eq.mpr hq
        rw [List.filter_cons_of_neg (by simp [hbq])]
        rw [ih]
        have hq' : (q.1 == k') = false := by
          rw [hq]; exact hkk
        rw [List.find?_cons, hq']
      · have hbq : (q.1 == k) = false := beq_eq_false_iff_ne.mpr hq
        rw [List.filter_cons_of_pos (by simp [hbq])]
        rw [List.find?_cons, List.find?_cons]
        cases hfq : (q.1 == k') with
        | true => rfl
        | false => exact ih

theorem lastAssoc_append (ps qs : List (List Char × List Char)) (k : List Char) :
    lastAssoc (ps ++ qs) k = (lastAssoc qs k).or (lastAssoc ps k) := by
  unfold lastAssoc
  rw [List.reverse_append, List.find?_append]
  cases (qs.reverse.find? fun p => p.1 == k) <;> simp [Option.or]

theorem lastAssoc_singleton (p : List Char × List Char) (k : List Char) :
    lastAssoc [p] k = if p.1 = k then some p.2 else none := by
  unfold lastAssoc
  by_cases hp : p.1 = k
  · have hb : (p.1 == k) = true := beq_iff_eq.mpr hp
    simp [List.find?, hb, hp]
  · have hb : (p.1 == k) = false := beq_eq_false_iff_ne.mpr hp
    simp [List.find?, hb, hp]

theorem lastAssoc_cons (p : List Char × List Char)
    (ps : List (List Char × List Char)) (k : List Char) :
    lastAssoc (p :: ps) k =
      (lastAssoc ps k).or (if p.1 = k then some p.2 else none) := by
  rw [show p :: ps = [p] ++ ps from rfl, lastAssoc_append, lastAssoc_singleton]

theorem lookupKey_insertAll (ps : List (List Char × List Char))
    (m : List (List Char × List Char)) (k : List Char) :
    lookupKey (insertAll m ps) k = (lastAssoc ps k).or (lookupKey m k) := by
  induction ps generalizing m with
  | nil => simp [insertAll, lastAssoc, Option.or]
  | cons p ps ih =>
    rw [show insertAll m (p :: ps) = insertAll (insertKV m p.1 p.2) ps from rfl]
    rw [ih, lookupKey_insertKV, lastAssoc_cons]
    cases lastAssoc ps k with
    | some v => simp [Option.or]
    | none =>
      by_cases hp : p.1 = k
      · simp [Option.or, hp]
      · simp [Option.or, hp, Ne.symm hp]

/-- Unique keys, the `HashMap` invariant of the association-list model. -/
def nodupKeys (m : List (List Char × List Char)) : Prop :=
  (m.map Prod.fst).Nodup

theorem nodupKeys_insertKV {m : List (List Char × List Char)}
    (h : nodupKeys m) (k v : List Char) : nodupKeys (insertKV m k v) := by
  unfold nodupKeys insertKV at *
  rw [List.map_append]
  refine List.Nodup.append ?_ (by simp) ?_
  · exact ((List.filter_sublist m).map Prod.fst).nodup h
  · intro a ha hb
    simp only [List.map_cons, List.map_nil, List.mem_singleton] at hb
    subst hb
    obtain ⟨p, hp, hpa⟩ := List.mem_map.mp ha
    have := (List.mem_filter.mp hp).2
    simp only [Bool.not_eq_true', beq_eq_false_iff_ne] at this
    exact this hpa

theorem nodupKeys_insertAll (ps : List (List Char × List Char)) :
    ∀ m, nodupKeys m → nodupKeys (insertAll m ps) := by
  induction ps with
  | nil => exact fun m hm => hm
  | cons p ps ih => exact fun m hm => ih _ (nodupKeys_insertKV hm p.1 p.2)

theorem lastAssoc_eq_none_of_not_mem {ps : List (List Char × List Char)}
    {k : List Char} (h : k ∉ ps.map Prod.fst) : lastAssoc ps k = none := by
  unfold lastAssoc
  rw [Option.map_eq_none', List.find?_eq_none]
  intro p hp hb
  have hmem : p.1 ∈ ps.map Prod.fst :=
    List.mem_map_of_mem _ (List.mem_reverse.mp hp)
  exact h (beq_iff_eq.mp hb ▸ hmem)

theorem lastAssoc_eq_lookupKey {m : List (List Char × List Char)}
    (h : nodupKeys m) (k : List Char) : lastAssoc m k = lookupKey m k := by
  induction m with
  | nil => rfl
  | cons p ps ih =>
    unfold nodupKeys at h
    rw [List.map_cons, List.nodup_cons] at h
    rw [lastAssoc_cons]
    unfold lookupKey
    rw [List.find?_cons]
    by_cases hp : p.1 = k
    · rw [beq_iff_eq.mpr hp, if_pos hp]
      have hnone : lastAssoc ps k = none :=
        lastAssoc_eq_none_of_not_mem (hp ▸ h.1)
      rw [hnone]
      rfl
    · rw [beq_eq_false_iff_ne.mpr hp, if_neg hp, Option.or_none]
      exact ih h.2

/-- Metadata of a scanned directory entry, as far as the builders read it:
whether it is a regular file, and its Unix permission/mode bits. -/
structure EntryMeta where
  isFile : Bool
  mode : Nat
  deriving DecidableEq, Repr

/-- A directory entry as the scanners see it: its file name, its metadata
(`none` when `metadata()` fails), and the lines of the file's contents
(`none` when `File::open` fails, in which case `create_cache` skips it). -/
structure ScanEntry where
  name : List Char
  meta : Option EntryMeta
  contents : Option (List (List Char))
  deriving DecidableEq, Repr

/-- The map built by `create_cache`: fold over the predicate-filtered
directory entries in scan order (the watched directories concatenated in
their listed order), skipping entries whose file cannot be opened, and
insert `localizer(file_name, file) -> file_name`. -/
def createCache (entries : List ScanEntry) (pred : ScanEntry → Bool)
    (localizer : List Char → List (List Char) → List Char) :
    List (List Char × List Char) :=
  (entries.filter pred).foldl
    (fun acc e =>
      match e.contents with
      | some ls => insertKV acc (localizer e.name ls) e.name
      | none => acc)
    []

/-- The key/value pairs a scan produces, in scan order, before map
collection collapses duplicate keys. -/
def scanPairs (entries : List ScanEntry) (pred : ScanEntry → Bool)
    (localizer : List Char → List (List Char) → List Char) :
    List (List Char × List Char) :=
  (entries.filter pred).filterMap fun e =>
    e.contents.map fun ls => (localizer e.name ls, e.name)

theorem foldl_insert_eq_insertAll (l : List ScanEntry)
    (localizer : List Char → List (List Char) → List Char) :
    ∀ m, l.foldl
        (fun acc e =>
          match e.contents with
          | some ls => insertKV acc (localizer e.name ls) e.name
          | none => acc) m =
      insertAll m (l.filterMap fun e =>
        e.contents.map fun ls => (localizer e.name ls, e.name)) := by
  induction l with
  | nil => exact fun m => rfl
  | cons e l ih =>
    intro m
    rw [List.foldl_cons, List.filterMap_cons]
    cases e.contents with
    | none => exact ih m
    | some ls => exact ih _

theorem createCache_eq_insertAll (entries : List ScanEntry)
    (pred : ScanEntry → Bool)
    (localizer : List Char → List (List Char) → List Char) :
    createCache entries pred localizer =
      insertAll [] (scanPairs entries pred localizer) := by
  unfold createCache scanPairs
  exact foldl_insert_eq_insertAll _ _ _

/-- Fuelled loop for Rust `str::trim_start_matches(pat)`: repeatedly
remove the pattern from the front while it leads the string. -/
def trimStartMatchesAux (pat : List Char) : Nat → List Char → List Char
  | 0, s => s
  | fuel + 1, s =>
    if pat ≠ [] ∧ pat.isPrefixOf s then
      trimStartMatchesAux pat fuel (s.drop pat.length)
    else s

/-- Rust `str::trim_start_matches(pat)`. -/
def trimStartMatches (pat s : List Char) : List Char :=
  trimStartMatchesAux pat s.length s

/-- Models `Path::extension()` applied to a file name: the portion after the last
dot; `none` when the name holds no dot, or when its only dot is the
leading character. -/
def pathExtension (name : List Char) : Option (List Char) :=
  let ext := name.reverse.takeWhile fun c => c ≠ '.'
  if ext.length = name.length then none
  else if ext.length + 1 = name.length then none
  else some ext.reverse

/-- Bitwise NOT of a `u32` (`!mode` in Rust), as XOR with the all-ones
32-bit word. -/
def notU32 (m : Nat) : Nat := m ^^^ (2 ^ 32 - 1)

/-- The `create_path_cache` predicate:
`x.metadata().map(|meta| !meta.permissions().mode() & 0o111).contains(&0)`
and `x.metadata().map(|y| y.is_file()).unwrap_or_default()`. -/
def pathPredicate (e : ScanEntry) : Bool :=
  ((e.meta.map fun md => notU32 md.mode &&& 0o111) == some 0)
    && (e.meta.map EntryMeta.isFile).getD false

/-- The `create_path_cache` localizer: `|name, _| name`. -/
def pathLocalizer (name : List Char) (_contents : List (List Char)) : List Char :=
  name

/-- The `create_desktop_cache` predicate: the file name's extension is
`desktop` and the metadata says regular file; entries without an extension
are rejected. -/
def desktopPredicate (e : ScanEntry) : Bool :=
  match pathExtension e.name with
  | some ext => ext == "desktop".toList && (e.meta.map EntryMeta.isFile).getD false
  | none => false

/-- The `create_desktop_cache` localizer: the first line of the file
starting with `Name=`, with every leading repetition of `Name=` stripped
(`trim_start_matches`); the empty string when no such line exists. -/
def desktopLocalizer (_name : List Char) (contents : List (List Char)) : List Char :=
  trimStartMatches ("Name=".toList)
    ((contents.find? fun l => "Name=".toList.isPrefixOf l).getD [])

/-- The rebuild branch of `main`: build the path cache, then
`cache.extend(create_desktop_cache(..))`, so desktop bindings are inserted
after (and over) path bindings. -/
def mergedRebuildCache (pathEntries desktopEntries : List ScanEntry) :
    List (List Char × List Char) :=
  insertAll (createCache pathEntries pathPredicate pathLocalizer)
    (createCache desktopEntries desktopPredicate desktopLocalizer)

/-- C8: key-collision precedence.  The merged rebuild mapping resolves
every key to the value of the last insertion for that key, over the path
scan's pairs followed by the desktop scan's pairs in scan order: a
later-scanned directory overwrites an earlier one within a builder, and
the desktop builder, running second, overwrites the path builder. -/
theorem collision_precedence (pathEntries desktopEntries : List ScanEntry)
    (k : List Char) :
    lookupKey (mergedRebuildCache pathEntries desktopEntries) k =
      lastAssoc (scanPairs pathEntries pathPredicate pathLocalizer ++
        scanPairs desktopEntries desktopPredicate desktopLocalizer) k := by
  unfold mergedRebuildCache
  rw [createCache_eq_insertAll, createCache_eq_insertAll,
    lookupKey_insertAll, lookupKey_insertAll, lookupKey_nil, Option.or_none,
    lastAssoc_append]
  have hB :
      lastAssoc (insertAll []
          (scanPairs desktopEntries desktopPredicate desktopLocalizer)) k =
        lastAssoc (scanPairs desktopEntries desktopPredicate desktopLocalizer) k := by
    rw [lastAssoc_eq_lookupKey
        (nodupKeys_insertAll _ [] (by simp [nodupKeys])),
      lookupKey_insertAll, lookupKey_nil, Option.or_none]
  rw [hB]

theorem execMask_lt_32 {i : Nat} (hb : Nat.testBit 0o111 i = true) : i < 32 := by
  by_contra h32
  have h7 : (0o111 : Nat) < 2 ^ i :=
    lt_of_lt_of_le (by norm_num)
      (Nat.pow_le_pow_right (by norm_num) (by omega : 7 ≤ i))
  rw [Nat.testBit_eq_false_of_lt h7] at hb
  exact Bool.false_ne_true hb

/-- The test `!mode & 0o111 == 0` holds exactly when all three executable bits of
the mode are set. -/
theorem notU32_exec_iff (m : Nat) :
    notU32 m &&& 0o111 = 0 ↔ m &&& 0o111 = 0o111 := by
  constructor
  · intro h
    apply Nat.eq_of_testBit_eq
    intro i
    rw [Nat.testBit_land]
    cases hb : Nat.testBit 0o111 i with
    | false => simp
    | true =>
      rw [Bool.and_true]
      have hz := congrArg (fun n => Nat.testBit n i) h
      simp only [Nat.testBit_land, Nat.zero_testBit] at hz
      rw [hb, Bool.and_true] at hz
      unfold notU32 at hz
      rw [Nat.testBit_xor, Nat.testBit_two_pow_sub_one,
        decide_eq_true (execMask_lt_32 hb)] at hz
      simpa using hz
  · intro h
    apply Nat.eq_of_testBit_eq
    intro i
    rw [Nat.testBit_land, Nat.zero_testBit]
    cases hb : Nat.testBit 0o111 i with
    | false => simp
    | true =>
      rw [Bool.and_true]
      have hm : Nat.testBit m i = true := by
        have hz := congrArg (fun n => Nat.testBit n i) h
        simp only [Nat.testBit_land] at hz
        rw [hb, Bool.and_true] at hz
        exact hz
      unfold notU32
      rw [Nat.testBit_xor, Nat.testBit_two_pow_sub_one,
        decide_eq_true (execMask_lt_32 hb), hm]
      rfl

theorem pathPredicate_iff (e : ScanEntry) :
    pathPredicate e = true ↔
      ∃ md, e.meta = some md ∧ md.isFile = true ∧ md.mode &&& 0o111 = 0o111 := by
  unfold pathPredicate
  cases e.meta with
  | none => simp
  | some md =>
    rw [Bool.and_eq_true]
    simp only [Option.map_some', Option.getD_some, Option.some.injEq]
    constructor
    · rintro ⟨h1, h2⟩
      exact ⟨md, rfl, h2, (notU32_exec_iff _).mp (by simpa using h1)⟩
    · rintro ⟨md', hmd, h1, h2⟩
      subst hmd
      exact ⟨by simpa using (notU32_exec_iff _).mpr h2, h1⟩

theorem mem_scanPairs {entries : List ScanEntry} {pred : ScanEntry → Bool}
    {localizer : List Char → List (List Char) → List Char}
    {p : List Char × List Char} :
    p ∈ scanPairs entries pred localizer ↔
      ∃ e ∈ entries, pred e = true ∧
        ∃ ls, e.contents = some ls ∧ p = (localizer e.name ls, e.name) := by
  unfold scanPairs
  rw [List.mem_filterMap]
  constructor
  · rintro ⟨e, he, hmap⟩
    obtain ⟨hee, hpe⟩ := List.mem_filter.mp he
    cases hc : e.contents with
    | none => rw [hc] at hmap; exact absurd hmap (by simp)
    | some ls =>
      rw [hc] at hmap
      simp only [Option.map_some', Option.some.injEq] at hmap
      exact ⟨e, hee, hpe, ls, hc, hmap.symm⟩
  · rintro ⟨e, he, hpe, ls, hc, rfl⟩
    exact ⟨e, List.mem_filter.mpr ⟨he, hpe⟩, by rw [hc]; rfl⟩

/-- C5 (amended): path-cache predicate.  A scanned entry contributes to
the path cache iff it is a regular file with all three executable
permission bits set (owner, group, and other: the code tests
`!mode & 0o111 == 0`, the complement of the claimed any-bit test), and
every included entry maps its filename to itself. -/
theorem path_cache_characterization (entries : List ScanEntry) (k v : List Char) :
    lookupKey (createCache entries pathPredicate pathLocalizer) k = some v ↔
      v = k ∧ ∃ e ∈ entries, e.name = k ∧ e.contents.isSome = true ∧
        ∃ md, e.meta = some md ∧ md.isFile = true ∧ md.mode &&& 0o111 = 0o111 := by
  rw [createCache_eq_insertAll, lookupKey_insertAll, lookupKey_nil, Option.or_none]
  have hshape : ∀ p ∈ scanPairs entries pathPredicate pathLocalizer, p.1 = p.2 := by
    intro p hp
    obtain ⟨e, _, _, ls, _, rfl⟩ := mem_scanPairs.mp hp
    rfl
  constructor
  · intro h
    unfold lastAssoc at h
    cases hf : (scanPairs entries pathPredicate pathLocalizer).reverse.find?
        fun p => p.1 == k with
    | none => rw [hf] at h; exact absurd h (by simp)
    | some q =>
      rw [hf] at h
      simp only [Option.map_some', Option.some.injEq] at h
      have hqb := List.find?_some hf
      have hqk : q.1 = k := beq_iff_eq.mp hqb
      have hq : q ∈ scanPairs entries pathPredicate pathLocalizer :=
        List.mem_reverse.mp (List.mem_of_find?_eq_some hf)
      obtain ⟨e, he, hpe, ls, hc, hqe⟩ := mem_scanPairs.mp hq
      obtain ⟨md, hmd, hfile, hmode⟩ := (pathPredicate_iff e).mp hpe
      refine ⟨by rw [← h, ← hqk, hshape q hq], e, he, ?_, ?_, md, hmd, hfile, hmode⟩
      · have h1 : q.1 = e.name := by simp [hqe, pathLocalizer]
        rw [← h1, hqk]
      · rw [hc]; rfl
  · rintro ⟨hvk, e, he, hname, hcont, md, hmd, hfile, hmode⟩
    rw [hvk]
    obtain ⟨ls, hc⟩ := Option.isSome_iff_exists.mp hcont
    have hpair : (k, k) ∈ scanPairs entries pathPredicate pathLocalizer := by
      rw [mem_scanPairs]
      exact ⟨e, he, (pathPredicate_iff e).mpr ⟨md, hmd, hfile, hmode⟩,
        ls, hc, by simp [pathLocalizer, hname]⟩
    unfold lastAssoc
    have hex : ∃ p ∈ (scanPairs entries pathPredicate pathLocalizer).reverse,
        (p.1 == k) = true :=
      ⟨(k, k), List.mem_reverse.mpr hpair, beq_self_eq_true k⟩
    cases hf : (scanPairs entries pathPredicate pathLocalizer).reverse.find?
        fun p => p.1 == k with
    | none =>
      rw [List.find?_eq_none] at hf
      obtain ⟨p, hp, hpk⟩ := hex
      exact absurd hpk (hf p hp)
    | some q =>
      have hqb := List.find?_some hf
      have hqk : q.1 = k := beq_iff_eq.mp hqb
      have hq : q ∈ scanPairs entries pathPredicate pathLocalizer :=
        List.mem_reverse.mp (List.mem_of_find?_eq_some hf)
      simp only [Option.map_some']
      rw [← hshape q hq, hqk]

/-- Modelled from the spec's words, for comparison with the code: a
regular file with at least one executable permission bit set (owner,
group, or other). -/
def specPathPredicate (e : ScanEntry) : Bool :=
  match e.meta with
  | some md => md.isFile && !(md.mode &&& 0o111 == 0)
  | none => false

/-- C5 counterexample: a regular file with mode `0o744` (executable by its
owner only) satisfies the claim's at-least-one-bit predicate but is
rejected by the code, which requires all three executable bits. -/
theorem path_predicate_claim_counterexample :
    pathPredicate ⟨"foo".toList, some ⟨true, 0o744⟩, some []⟩ = false ∧
      specPathPredicate ⟨"foo".toList, some ⟨true, 0o744⟩, some []⟩ = true := by
  constructor
  · rfl
  · rfl

/-- Writing a byte string into an existing file opened with
`write(true)` but without `truncate(true)` (the rebuild branch of `main`):
the new bytes overwrite the file from position 0, and any residual old
bytes beyond the written length remain. -/
def writeNoTruncate (oldContent newContent : List Char) : List Char :=
  newContent ++ oldContent.drop newContent.length

/-- The cache file's content after the rebuild branch: `create_path_cache`
writes its serialized map through a `BufWriter`, then
`create_desktop_cache` writes its own at the advanced cursor, over the
previous content, with no truncation. -/
def rebuildFileContent (oldContent : List Char)
    (pathCache desktopCache : List (List Char × List Char)) : List Char :=
  writeNoTruncate oldContent
    (serializeCache pathCache ++ serializeCache desktopCache)

/-- C9: the rebuild does NOT truncate the persisted store.  With a prior
cache file serializing two records and a fresh rebuild producing the
single record `e -> f`, the resulting file is not the serialization of the
fresh mapping: the stale record `cc -> dd` survives past the written
prefix and is even parsed back on the next load. -/
theorem rebuild_no_truncation :
    rebuildFileContent
        (serializeCache [("aa".toList, "bb".toList), ("cc".toList, "dd".toList)])
        [("e".toList, "f".toList)] [] ≠
      serializeCache [("e".toList, "f".toList)] ∧
    parseCache (rebuildFileContent
        (serializeCache [("aa".toList, "bb".toList), ("cc".toList, "dd".toList)])
        [("e".toList, "f".toList)] []) =
      [("e".toList, "f".toList), ("cc".toList, "dd".toList)] := by
  constructor
  · decide
  · decide

end DmenuDrun
